import Mathlib

/-!
Verification of the `lazyevaluation` deferred-evaluation library.

Shallow embedding of the TypeScript sources:

* `type Lazy<T> = () => T` — a deferred value is a zero-argument producer.
* `lazify`, `lazyToGreedy`, `lazyQuicksort` (src/index.ts),
* the value-level combinators `mapLazy`, `bindLazy`, `applyLazy` (part_001),
* the sequence-level `mapLazy` (part_002).

Three embeddings are used, each faithful to the same source text but
observing a different aspect of evaluation:

1. a pure embedding (`Lazy α := Unit → α`) for value-level results,
2. an `Option`-valued embedding (`Err` namespace) in which a thunk or a
   user function may fail when invoked, observing *when* failures surface
   (JavaScript evaluates function arguments eagerly, so `lazify(e)`
   evaluates `e` at the call),
3. a state-counting embedding (`Cnt` namespace, `Thk σ α := σ → α × σ`)
   in which invoking an instrumented thunk increments a counter, observing
   *how many times* and *when* producers are forced.
-/

/-- `type Lazy<T> = () => T`. -/
abbrev Lazy (α : Type) := Unit → α

/-- `const lazify = <T>(val: T): Lazy<T> => (() => val)`. -/
def lazify (v : α) : Lazy α := fun _ => v

/-- `type LazyArray<T> = Lazy<Lazy<T>[]>`. -/
abbrev LazyArray (α : Type) := Lazy (List (Lazy α))

/-- `const lazyToGreedy = <T>(arr: T[]): Lazy<Lazy<T>[]> => lazify(arr.map(l => lazify(l)))`. -/
def lazyToGreedy (l : List α) : LazyArray α := lazify (l.map lazify)

/-- Collapsing a lazy array to a concrete one, as the source does with
`sorted().map(l => l())`: force the outer layer, then force every element. -/
def toGreedy (arr : LazyArray α) : List α := (arr ()).map fun l => l ()

/-- `lazyQuicksort` from src/index.ts, in the pure embedding.  The source
tests `!arr().length`, destructures `const [x, ...xs] = arr()` (in the pure
embedding the second call returns the same list, so the `[]` branch of the
match is unreachable and returns `arr` as the guard would have), filters the
remainder twice through the comparator, recurses, and wraps the
concatenation with `lazify`. -/
def lazyQuicksort (arr : LazyArray α) (comparator : Lazy α → Lazy α → Lazy Int) :
    LazyArray α :=
  if (arr ()).length = 0 then arr
  else
    match h : arr () with
    | [] => arr
    | x :: xs =>
      let smallerSorted :=
        lazyQuicksort (lazify (xs.filter fun a => decide (comparator a x () ≤ 0))) comparator
      let biggerSorted :=
        lazyQuicksort (lazify (xs.filter fun a => decide (comparator a x () > 0))) comparator
      lazify (smallerSorted () ++ [x] ++ biggerSorted ())
termination_by (arr ()).length
decreasing_by
  all_goals simp only [lazify, h, List.length_cons]
  all_goals exact Nat.lt_succ_of_le (List.length_filter_le _ _)

/-- The list-level quicksort that `lazyQuicksort` computes, keyed by a
ranking function `f` into `Int` (the forced comparator value for `a, x` is
`f a - f x`).  `f := id` gives the numeric subtraction comparator; `f :=
boolToInt` gives the boolean-difference comparator. -/
def qsortBy (f : α → Int) : List α → List α
  | [] => []
  | x :: xs =>
    qsortBy f (xs.filter fun a => decide (f a - f x ≤ 0)) ++
      x :: qsortBy f (xs.filter fun a => decide (f a - f x > 0))
termination_by l => l.length
decreasing_by
  all_goals exact Nat.lt_succ_of_le (List.length_filter_le _ _)

/-- The JavaScript numeric coercion of booleans: `true - false = 1` etc. -/
def boolToInt (b : Bool) : Int := if b then 1 else 0

/-- The ranking comparator `(a, b) => () => f(a()) - f(b())` in the pure
embedding; with `f := id` this is literally the comparator of src/index.ts. -/
def subCmp (f : α → Int) : Lazy α → Lazy α → Lazy Int :=
  fun a b => fun _ => f (a ()) - f (b ())

theorem lazyQuicksort_eq_nil (arr : LazyArray α) (comparator : Lazy α → Lazy α → Lazy Int)
    (h : arr () = []) : lazyQuicksort arr comparator = arr := by
  rw [lazyQuicksort, if_pos (by rw [h]; rfl)]

theorem lazyQuicksort_eq_cons (arr : LazyArray α) (comparator : Lazy α → Lazy α → Lazy Int)
    (x : Lazy α) (xs : List (Lazy α)) (h : arr () = x :: xs) :
    lazyQuicksort arr comparator =
      lazify
        ((lazyQuicksort (lazify (xs.filter fun a => decide (comparator a x () ≤ 0))) comparator) () ++
          [x] ++
          (lazyQuicksort (lazify (xs.filter fun a => decide (comparator a x () > 0))) comparator) ()) := by
  rw [lazyQuicksort, if_neg (by rw [h]; simp)]
  split
  next heq => rw [h] at heq; cases heq
  next y ys heq =>
    rw [h] at heq
    injection heq with hx hxs
    subst hx; subst hxs
    rfl

theorem filter_lazify_map (f : α → Int) (x : α) (p : Int → Bool) (l : List α) :
    ((l.map lazify).filter fun a => p (subCmp f a (lazify x) ())) =
      (l.filter fun a => p (f a - f x)).map lazify := by
  rw [List.filter_map]
  rfl

theorem lazyQuicksort_lazify (f : α → Int) (l : List α) :
    lazyQuicksort (lazify (l.map lazify)) (subCmp f) () = (qsortBy f l).map lazify := by
  have H : ∀ (n : Nat) (l : List α), l.length = n →
      lazyQuicksort (lazify (l.map lazify)) (subCmp f) () = (qsortBy f l).map lazify := by
    intro n
    induction n using Nat.strong_induction_on with
    | _ n ih =>
      intro l hn
      match l with
      | [] => rw [lazyQuicksort_eq_nil _ _ rfl]; simp [lazify, qsortBy]
      | x :: xs =>
        rw [lazyQuicksort_eq_cons (lazify ((x :: xs).map lazify)) (subCmp f)
          (lazify x) (xs.map lazify) rfl]
        rw [qsortBy]
        have h1 : ((xs.map lazify).filter fun a => decide (subCmp f a (lazify x) () ≤ 0)) =
            (xs.filter fun a => decide (f a - f x ≤ 0)).map lazify :=
          filter_lazify_map f x (fun c => decide (c ≤ 0)) xs
        have h2 : ((xs.map lazify).filter fun a => decide (subCmp f a (lazify x) () > 0)) =
            (xs.filter fun a => decide (f a - f x > 0)).map lazify :=
          filter_lazify_map f x (fun c => decide (c > 0)) xs
        have hs : xs.length < n := by
          simp only [List.length_cons] at hn; omega
        have hsm := ih _ (Nat.lt_of_le_of_lt (List.length_filter_le _ xs) hs)
          (xs.filter fun a => decide (f a - f x ≤ 0)) rfl
        have hbg := ih _ (Nat.lt_of_le_of_lt (List.length_filter_le _ xs) hs)
          (xs.filter fun a => decide (f a - f x > 0)) rfl
        simp only [h1, h2, hsm, hbg]
        simp [lazify]
  exact H l.length l rfl

theorem qsortBy_filter_neg (f : α → Int) (x : α) (xs : List α) :
    (xs.filter fun a => decide (f a - f x > 0)) =
      xs.filter fun a => !(decide (f a - f x ≤ 0)) := by
  apply List.filter_congr
  intro a _
  rw [← decide_not, decide_eq_decide]
  omega

theorem qsortBy_perm (f : α → Int) (l : List α) : (qsortBy f l).Perm l := by
  have H : ∀ (n : Nat) (l : List α), l.length = n → (qsortBy f l).Perm l := by
    intro n
    induction n using Nat.strong_induction_on with
    | _ n ih =>
      intro l hn
      match l with
      | [] => rw [qsortBy]
      | x :: xs =>
        rw [qsortBy]
        have hs : xs.length < n := by
          simp only [List.length_cons] at hn; omega
        have hsm := ih _ (Nat.lt_of_le_of_lt (List.length_filter_le _ xs) hs)
          (xs.filter fun a => decide (f a - f x ≤ 0)) rfl
        have hbg := ih _ (Nat.lt_of_le_of_lt (List.length_filter_le _ xs) hs)
          (xs.filter fun a => decide (f a - f x > 0)) rfl
        refine List.Perm.trans (List.Perm.append hsm (List.Perm.cons x hbg)) ?_
        refine List.Perm.trans List.perm_middle ?_
        apply List.Perm.cons
        rw [qsortBy_filter_neg]
        exact List.filter_append_perm _ xs
  exact H l.length l rfl

theorem mem_qsortBy (f : α → Int) (l : List α) (a : α) :
    a ∈ qsortBy f l ↔ a ∈ l := (qsortBy_perm f l).mem_iff

theorem qsortBy_sorted (f : α → Int) (l : List α) :
    (qsortBy f l).Sorted (fun a b => f a - f b ≤ 0) := by
  have H : ∀ (n : Nat) (l : List α), l.length = n →
      (qsortBy f l).Sorted (fun a b => f a - f b ≤ 0) := by
    intro n
    induction n using Nat.strong_induction_on with
    | _ n ih =>
      intro l hn
      match l with
      | [] => rw [qsortBy]; exact List.sorted_nil
      | x :: xs =>
        rw [qsortBy]
        have hs : xs.length < n := by
          simp only [List.length_cons] at hn; omega
        have hsm := ih _ (Nat.lt_of_le_of_lt (List.length_filter_le _ xs) hs)
          (xs.filter fun a => decide (f a - f x ≤ 0)) rfl
        have hbg := ih _ (Nat.lt_of_le_of_lt (List.length_filter_le _ xs) hs)
          (xs.filter fun a => decide (f a - f x > 0)) rfl
        have hmemsm : ∀ a ∈ qsortBy f (xs.filter fun a => decide (f a - f x ≤ 0)),
            f a - f x ≤ 0 := by
          intro a ha
          rw [mem_qsortBy, List.mem_filter, decide_eq_true_eq] at ha
          exact ha.2
        have hmembg : ∀ b ∈ qsortBy f (xs.filter fun a => decide (f a - f x > 0)),
            f b - f x > 0 := by
          intro b hb
          rw [mem_qsortBy, List.mem_filter, decide_eq_true_eq] at hb
          exact hb.2
        unfold List.Sorted
        rw [List.pairwise_append]
        refine ⟨hsm, ?_, ?_⟩
        · rw [List.pairwise_cons]
          refine ⟨fun b hb => ?_, hbg⟩
          have := hmembg b hb
          omega
        · intro a ha b hb
          have ha2 := hmemsm a ha
          rcases List.mem_cons.mp hb with hb | hb
          · subst hb; exact ha2
          · have := hmembg b hb
            omega
  exact H l.length l rfl

theorem toGreedy_lazyQuicksort (f : α → Int) (xs : List α) :
    toGreedy (lazyQuicksort (lazyToGreedy xs) (subCmp f)) = qsortBy f xs := by
  unfold toGreedy lazyToGreedy
  rw [lazyQuicksort_lazify, List.map_map]
  have hcomp : ((fun l : Lazy α => l ()) ∘ lazify) = fun a : α => a := rfl
  rw [hcomp]
  simp

/-- Claim C1: for every finite sequence of numbers with the subtraction comparator
`(a, b) => () => a() - b()`, and every finite sequence of booleans with the
boolean-difference comparator, collapsing `lazyQuicksort(lazyToGreedy(xs), cmp)`
(forcing the outer layer and then every element) yields a permutation of `xs`
that is sorted non-decreasingly according to the comparator. -/
theorem c1_sort_correct :
    (∀ xs : List Int,
      (toGreedy (lazyQuicksort (lazyToGreedy xs) (fun a b => fun _ => a () - b ()))).Perm xs ∧
      (toGreedy (lazyQuicksort (lazyToGreedy xs) (fun a b => fun _ => a () - b ()))).Sorted
        (fun a b => a - b ≤ 0)) ∧
    (∀ xs : List Bool,
      (toGreedy (lazyQuicksort (lazyToGreedy xs)
        (fun a b => fun _ => boolToInt (a ()) - boolToInt (b ())))).Perm xs ∧
      (toGreedy (lazyQuicksort (lazyToGreedy xs)
        (fun a b => fun _ => boolToInt (a ()) - boolToInt (b ())))).Sorted
        (fun a b => boolToInt a - boolToInt b ≤ 0)) := by
  constructor
  · intro xs
    have he : (fun (a b : Lazy Int) => fun _ : Unit => a () - b ()) = subCmp id := rfl
    rw [he, toGreedy_lazyQuicksort id xs]
    exact ⟨qsortBy_perm id xs, qsortBy_sorted id xs⟩
  · intro xs
    have he : (fun (a b : Lazy Bool) => fun _ : Unit => boolToInt (a ()) - boolToInt (b ())) =
        subCmp boolToInt := rfl
    rw [he, toGreedy_lazyQuicksort boolToInt xs]
    exact ⟨qsortBy_perm boolToInt xs, qsortBy_sorted boolToInt xs⟩

/-- Claim C6: converting a concrete sequence to a deferred sequence with
`lazyToGreedy` and collapsing it back (forcing the outer layer and every
element) returns the original sequence, element for element and in order. -/
theorem c6_roundtrip : ∀ (α : Type) (xs : List α), toGreedy (lazyToGreedy xs) = xs := by
  intro α xs
  unfold toGreedy lazyToGreedy
  rw [show (lazify (xs.map lazify)) () = xs.map lazify from rfl, List.map_map]
  have hcomp : ((fun l : Lazy α => l ()) ∘ lazify) = fun a : α => a := rfl
  rw [hcomp]
  simp

/-- Fuel-indexed variant of `lazyQuicksort`, mirroring the source recursion
step for step; `none` means the fuel ran out before the recursion reached its
terminal case.  Used to state termination: the recursion always terminates
within `length + 1` nested calls, because each recursive call operates on a
filtered remainder, which is strictly shorter than the sequence of the caller. -/
def lazyQuicksortFuel (comparator : Lazy α → Lazy α → Lazy Int) :
    Nat → LazyArray α → Option (LazyArray α)
  | 0, _ => none
  | fuel + 1, arr =>
    if (arr ()).length = 0 then some arr
    else
      match arr () with
      | [] => none
      | x :: xs =>
        match lazyQuicksortFuel comparator fuel
            (lazify (xs.filter fun a => decide (comparator a x () ≤ 0))) with
        | none => none
        | some smallerSorted =>
          match lazyQuicksortFuel comparator fuel
              (lazify (xs.filter fun a => decide (comparator a x () > 0))) with
          | none => none
          | some biggerSorted => some (lazify (smallerSorted () ++ [x] ++ biggerSorted ()))

/-- Claim C8: `lazyQuicksort` terminates on every finite input deferred sequence and
every comparator with a total numeric result: since each recursive call
operates on a filtered remainder strictly shorter than the sequence of its caller,
any fuel bound exceeding the input length suffices, and the fuel-indexed
recursion reaches the terminal case and agrees with the total function. -/
theorem c8_termination (comparator : Lazy α → Lazy α → Lazy Int) (arr : LazyArray α)
    (fuel : Nat) (h : (arr ()).length < fuel) :
    lazyQuicksortFuel comparator fuel arr = some (lazyQuicksort arr comparator) := by
  induction fuel generalizing arr with
  | zero => omega
  | succ fuel ih =>
    match harr : arr () with
    | [] =>
      rw [lazyQuicksortFuel, if_pos (by rw [harr]; rfl), lazyQuicksort_eq_nil arr comparator harr]
    | x :: xs =>
      rw [lazyQuicksortFuel, if_neg (by rw [harr]; simp)]
      rw [lazyQuicksort_eq_cons arr comparator x xs harr]
      have hlen : xs.length < fuel := by
        rw [harr] at h; simp only [List.length_cons] at h; omega
      have hsm := ih (lazify (xs.filter fun a => decide (comparator a x () ≤ 0)))
        (Nat.lt_of_le_of_lt (List.length_filter_le _ xs) hlen)
      have hbg := ih (lazify (xs.filter fun a => decide (comparator a x () > 0)))
        (Nat.lt_of_le_of_lt (List.length_filter_le _ xs) hlen)
      rw [harr]
      simp only [hsm, hbg]

/-- Witness for `c8_termination` at the concrete program input `[2, 4, 1, 3]`
with the subtraction comparator and fuel `5`. -/
theorem c8_termination_witness :
    ((lazyToGreedy [2, 4, 1, 3] : LazyArray Int) ()).length < 5 ∧
    lazyQuicksortFuel (subCmp id) 5 (lazyToGreedy [2, 4, 1, 3]) =
      some (lazyQuicksort (lazyToGreedy [2, 4, 1, 3]) (subCmp id)) :=
  ⟨by decide, c8_termination (subCmp id) (lazyToGreedy [2, 4, 1, 3]) 5 (by decide)⟩

namespace Err

/-- Error-observing embedding: a deferred value whose producer may fail
(throw) when invoked. -/
abbrev LazyE (α : Type) := Unit → Option α

/-- `lazify` wraps an already-computed value, so its producer always
succeeds. -/
def lazify (v : α) : LazyE α := fun _ => some v

/-- Value-level `mapLazy` (part_001): `lazify(mapper(val()))`.  JavaScript
evaluates the argument of `lazify` before calling it, so `val` is forced and
`mapper` applied at the time `mapLazy` is called; a failure of either
propagates out of the `mapLazy` call itself (hence the call returns
`Option`), and only a successfully computed value is wrapped. -/
def mapLazy (val : LazyE α) (mapper : α → Option β) : Option (LazyE β) :=
  match val () with
  | none => none
  | some v =>
    match mapper v with
    | none => none
    | some u => some (lazify u)

/-- `applyLazy` (part_001): `lazify(func()(val()))`.  The callee `func()` is
evaluated first, then the argument `val()`, then the application — all before
`lazify` is called, so both inputs are forced at the time `applyLazy` is
called and a failure of either forcing propagates out of the call itself. -/
def applyLazy (val : LazyE α) (func : LazyE (α → β)) : Option (LazyE β) :=
  match func () with
  | none => none
  | some g =>
    match val () with
    | none => none
    | some v => some (lazify (g v))

end Err

/-- Claim C2 counterexample: with a deferred value that forces fine and a deferred
function whose forcing fails, the `applyLazy` call itself fails (`none`)
instead of succeeding and deferring the failure to the result, refuting the
claim that `applyLazy` forces neither input at call time and always returns
successfully. -/
theorem c2_counterexample :
    Err.applyLazy (Err.lazify (0 : Int)) (fun _ => (none : Option (Int → Int))) = none := rfl

/-- Claim C2 (amended): `applyLazy(d, f)` forces `f` and then `d` at the time it is
called; if forcing either fails, the `applyLazy` call itself fails, and when
both succeed it returns a deferred value that always forces successfully to
the already-computed application. -/
theorem c2_applyLazy_eager {α β : Type} (val : Err.LazyE α) (func : Err.LazyE (α → β)) :
    (func () = none → Err.applyLazy val func = none) ∧
    (∀ g, func () = some g → val () = none → Err.applyLazy val func = none) ∧
    (∀ g v, func () = some g → val () = some v →
      Err.applyLazy val func = some (Err.lazify (g v))) := by
  refine ⟨fun h => ?_, fun g hg hv => ?_, fun g v hg hv => ?_⟩
  · simp [Err.applyLazy, h]
  · simp [Err.applyLazy, hg, hv]
  · simp [Err.applyLazy, hg, hv]

/-- Witness for `c2_applyLazy_eager`: all three branches at concrete inputs. -/
theorem c2_applyLazy_eager_witness :
    Err.applyLazy (Err.lazify (0 : Int)) (fun _ => (none : Option (Int → Int))) = none ∧
    Err.applyLazy (fun _ => (none : Option Int)) (Err.lazify (fun n : Int => n + 1)) = none ∧
    Err.applyLazy (Err.lazify (2 : Int)) (Err.lazify (fun n : Int => n + 1)) =
      some (Err.lazify (3 : Int)) :=
  ⟨(c2_applyLazy_eager (Err.lazify 0) (fun _ => none)).1 rfl,
   (c2_applyLazy_eager (fun _ => none) (Err.lazify (fun n : Int => n + 1))).2.1
     (fun n => n + 1) rfl rfl,
   (c2_applyLazy_eager (Err.lazify 2) (Err.lazify (fun n : Int => n + 1))).2.2
     (fun n => n + 1) 2 rfl rfl⟩

/-- Claim C3 counterexample: with `d = lazify 0` (forcing succeeds) and a mapper
that fails on every input, the `mapLazy` call itself fails (`none`) — the
failure does not wait for the result to be forced — refuting the claim. -/
theorem c3_counterexample :
    Err.mapLazy (Err.lazify (0 : Int)) (fun _ => (none : Option Int)) = none := rfl

/-- Claim C3 (amended): `mapLazy(d, f)` forces `d` and applies `f` at the time it
is called; if `f` fails on the forced value of `d`, the `mapLazy` call itself
fails, and when `f` succeeds the returned deferred value always forces
successfully to the already-computed result of `f`. -/
theorem c3_mapLazy_eager {α β : Type} (v : α) (mapper : α → Option β) :
    (mapper v = none → Err.mapLazy (Err.lazify v) mapper = none) ∧
    (∀ u, mapper v = some u → Err.mapLazy (Err.lazify v) mapper = some (Err.lazify u)) := by
  refine ⟨fun h => ?_, fun u h => ?_⟩
  · simp [Err.mapLazy, Err.lazify, h]
  · simp [Err.mapLazy, Err.lazify, h]

/-- Witness for `c3_mapLazy_eager`: both branches at concrete inputs. -/
theorem c3_mapLazy_eager_witness :
    Err.mapLazy (Err.lazify (0 : Int)) (fun _ => (none : Option Int)) = none ∧
    Err.mapLazy (Err.lazify (3 : Int)) (fun n => some (n + 1)) = some (Err.lazify (4 : Int)) :=
  ⟨(c3_mapLazy_eager 0 (fun _ => none)).1 rfl,
   (c3_mapLazy_eager 3 (fun n => some (n + 1))).2 4 rfl⟩

namespace Cnt

/-- Counting embedding: a thunk is a state transformer; invoking it may tick
instrumentation counters carried in the state `σ`.  A plain (source) thunk
built by `lazify` leaves the state untouched; instrumented thunks used in the
theorems tick a counter each time their producer runs, which makes "how
often and when is this producer forced" an observable fact. -/
abbrev Thk (σ α : Type) := σ → α × σ

/-- `lazify` in the counting embedding: the producer of an already-computed
value has no observable effect. -/
def lazify (v : α) : Thk σ α := fun s => (v, s)

/-- `LazyArray` in the counting embedding. -/
abbrev LazyArr (σ α : Type) := Thk σ (List (Thk σ α))

/-- `lazyToGreedy`: wrap the sequence and each element with `lazify`. -/
def lazyToGreedy (l : List α) : LazyArr σ α := lazify (l.map lazify)

/-- An instrumented thunk that ticks the first counter each time it is
forced (used for the outer producer of an input deferred sequence, and for
the deferred value passed to `bindLazy`). -/
def tick1 (v : α) : Thk (Nat × Nat) α := fun s => (v, (s.1 + 1, s.2))

/-- An instrumented thunk that ticks the second counter each time it is
forced (used for the elements of an input deferred sequence, and for the
deferred value returned by a binder). -/
def tick2 (v : α) : Thk (Nat × Nat) α := fun s => (v, (s.1, s.2 + 1))

/-- Forcing a thunk `k` times in a row, observing only the state. -/
def forceTimes (t : Thk σ α) : Nat → σ → σ
  | 0, s => s
  | k + 1, s => forceTimes t k (t s).2

/-- Value-level `bindLazy` (part_001): `binder(val())`.  The call forces
`val` once, applies `binder`, and returns the deferred value of `binder`
unchanged; the call itself is the effectful step. -/
def bindLazy (val : Thk σ α) (binder : α → Thk σ β) : Thk σ (Thk σ β) :=
  fun s =>
    let p := val s
    (binder p.1, p.2)

/-- The element loop of the sequence-level `mapLazy` (part_002):
`arr().map(l => lazify(mapper(l())))` — each element is forced, in order, at
the time of the call, and each result wrapped with `lazify`. -/
def mapForce (mapper : α → β) : List (Thk σ α) → σ → List (Thk σ β) × σ
  | [], s => ([], s)
  | t :: ts, s =>
    let p := t s
    let q := mapForce mapper ts p.2
    (lazify (mapper p.1) :: q.1, q.2)

/-- Sequence-level `mapLazy` (part_002):
`lazify(arr().map(l => lazify(mapper(l()))))`.  JavaScript evaluates the
argument of the outer `lazify` eagerly, so the outer producer and every
element producer run at the time `mapLazy` is called. -/
def mapLazy (arr : LazyArr σ α) (mapper : α → β) : Thk σ (LazyArr σ β) :=
  fun s =>
    let p := arr s
    let q := mapForce mapper p.1 p.2
    (lazify q.1, q.2)

/-- The filters of `lazyQuicksort`: `xs.filter(a => keep(comparator(a, x)()))`.
The comparator result is built and forced once per element, in order; the
element thunks themselves are only passed along, never invoked here. -/
def filterForce (pred : Thk σ α → Thk σ Int) (keep : Int → Bool) :
    List (Thk σ α) → σ → List (Thk σ α) × σ
  | [], s => ([], s)
  | a :: rest, s =>
    let c := pred a s
    let q := filterForce pred keep rest c.2
    (if keep c.1 then a :: q.1 else q.1, q.2)

/-- `lazyQuicksort` in the counting embedding, fuel-indexed (the input thunk
is stateful, so the recursion is not structural; every theorem supplies
sufficient fuel).  Faithful to the evaluation order of the source: `arr()` for the
emptiness test, `arr()` again to destructure pivot and remainder, the
"smaller" filter then its recursive sort, the "bigger" filter then its
recursive sort, then both intermediate results are forced to build the final
`lazify`-wrapped concatenation.  The `[]` branch of the inner match (the
second forcing returning a different, empty list) is outside the typed
behaviour of the source and yields `none`. -/
def lazyQuicksort (comparator : Thk σ α → Thk σ α → Thk σ Int) :
    Nat → LazyArr σ α → σ → Option (LazyArr σ α × σ)
  | 0, _, _ => none
  | fuel + 1, arr, s =>
    let p1 := arr s
    if p1.1.length = 0 then some (arr, p1.2)
    else
      let p2 := arr p1.2
      match p2.1 with
      | [] => none
      | x :: xs =>
        let fsm := filterForce (fun a => comparator a x) (fun c => decide (c ≤ 0)) xs p2.2
        match lazyQuicksort comparator fuel (lazify fsm.1) fsm.2 with
        | none => none
        | some (smallerSorted, s4) =>
          let fbg := filterForce (fun a => comparator a x) (fun c => decide (c > 0)) xs s4
          match lazyQuicksort comparator fuel (lazify fbg.1) fbg.2 with
          | none => none
          | some (biggerSorted, s6) =>
            let psm := smallerSorted s6
            let pbg := biggerSorted psm.2
            some (lazify (psm.1 ++ [x] ++ pbg.1), pbg.2)

/-- The comparator `(a, b) => () => a() - b()` of src/index.ts, instrumented
so that each forcing of a comparator *result* ticks the counter (the sort
forces each result it builds exactly once, immediately, so the counter is the
number of comparator invocations). -/
def subCmpCount : Thk Nat Int → Thk Nat Int → Thk Nat Int :=
  fun a b => fun s =>
    let pa := a s
    let pb := b pa.2
    (pa.1 - pb.1, pb.2 + 1)

/-- A comparator that is inert with respect to the state: it returns its ordering value
without forcing anything (comparator internals are outside the forcing
behaviour of the sort itself). -/
def pureCmp (c : Thk σ α → Thk σ α → Int) : Thk σ α → Thk σ α → Thk σ Int :=
  fun a b => lazify (c a b)

end Cnt

theorem forceTimes_tick2 {β : Type} (w : β) (k : Nat) :
    ∀ s : Nat × Nat, Cnt.forceTimes (Cnt.tick2 w) k s = (s.1, s.2 + k) := by
  induction k with
  | zero => intro s; simp [Cnt.forceTimes]
  | succ k ih =>
    intro s
    rw [Cnt.forceTimes, ih]
    simp [Cnt.tick2]
    omega

/-- Claim C5: `bindLazy(d, f)` forces `d` exactly once, at the moment `bindLazy` is
called: with `d` instrumented to tick the first counter, the call ticks it
exactly once and returns the deferred value produced by `f` unchanged (for every binder);
forcing the returned deferred value any number `k` of times afterwards runs
only the producer supplied by the binder (second counter `+ k`) and never forces `d` again
(first counter untouched). -/
theorem c5_bindLazy_forces_once {α β : Type} (v : α) (s : Nat × Nat) :
    (∀ binder : α → Cnt.Thk (Nat × Nat) β,
      Cnt.bindLazy (Cnt.tick1 v) binder s = (binder v, (s.1 + 1, s.2))) ∧
    (∀ (w : β) (k : Nat) (s2 : Nat × Nat),
      Cnt.forceTimes (Cnt.bindLazy (Cnt.tick1 v) (fun _ => Cnt.tick2 w) s).1 k s2 =
        (s2.1, s2.2 + k)) := by
  constructor
  · intro binder; rfl
  · intro w k s2
    have ht : (Cnt.bindLazy (Cnt.tick1 v) (fun _ => Cnt.tick2 w) s).1 = Cnt.tick2 w := rfl
    rw [ht, forceTimes_tick2]

theorem mapForce_tick2 {α β : Type} (mapper : α → β) (l : List α) :
    ∀ s : Nat × Nat, Cnt.mapForce mapper (l.map Cnt.tick2) s =
      (l.map fun v => Cnt.lazify (mapper v), (s.1, s.2 + l.length)) := by
  induction l with
  | nil => intro s; simp [Cnt.mapForce]
  | cons v ts ih =>
    intro s
    rw [List.map_cons, Cnt.mapForce]
    simp only [Cnt.tick2, ih, List.map_cons, List.length_cons]
    refine congrArg _ ?_
    have : s.2 + 1 + ts.length = s.2 + (ts.length + 1) := by omega
    rw [this]

/-- Claim C4 counterexample: the sequence-level `mapLazy` of part_002, called on a
three-element deferred sequence whose elements tick the second counter when
forced, performs three element forcings during the call itself (final second
counter `3`, not `0`), refuting the claim that `mapLazy` forces no element of
its input at call time (and hence that converting to a concrete sequence is
the only operation forcing an entire deferred sequence). -/
theorem c4_counterexample :
    ((Cnt.mapLazy (Cnt.tick1 (([1, 2, 3] : List Int).map Cnt.tick2)) (fun v => v * 2)
        ((0, 0) : Nat × Nat)).2.2 = 3) ∧
    ¬ ((Cnt.mapLazy (Cnt.tick1 (([1, 2, 3] : List Int).map Cnt.tick2)) (fun v => v * 2)
        ((0, 0) : Nat × Nat)).2.2 = 0) := by
  constructor
  · rfl
  · intro hc
    exact absurd hc (by decide)

/-- Claim C4 (amended): the sequence-level `mapLazy` is eager, not lazy — at the
time it is called it forces the outer producer of its input once and every element
exactly once, and returns an already-computed, effect-free result; converting
to a concrete sequence is therefore not the only operation that forces an
entire deferred sequence recursively. -/
theorem c4_mapLazy_forces_all {α β : Type} (l : List α) (mapper : α → β) (s : Nat × Nat) :
    Cnt.mapLazy (Cnt.tick1 (l.map Cnt.tick2)) mapper s =
      (Cnt.lazify (l.map fun v => Cnt.lazify (mapper v)), (s.1 + 1, s.2 + l.length)) := by
  rw [Cnt.mapLazy]
  simp only [Cnt.tick1, mapForce_tick2]

theorem filterForce_pureCmp {σ α : Type} (c : Cnt.Thk σ α → Cnt.Thk σ α → Int)
    (x : Cnt.Thk σ α) (keep : Int → Bool) (l : List (Cnt.Thk σ α)) :
    ∀ s, Cnt.filterForce (fun a => Cnt.pureCmp c a x) keep l s =
      (l.filter fun a => keep (c a x), s) := by
  induction l with
  | nil => intro s; simp [Cnt.filterForce]
  | cons a rest ih =>
    intro s
    rw [Cnt.filterForce]
    have hc : (fun a => Cnt.pureCmp c a x) a s = (c a x, s) := rfl
    simp only [hc, ih, List.filter_cons]

theorem lazyQuicksort_pureCmp {σ α : Type} (c : Cnt.Thk σ α → Cnt.Thk σ α → Int) :
    ∀ (fuel : Nat) (l : List (Cnt.Thk σ α)) (s : σ), l.length < fuel →
    ∃ out, Cnt.lazyQuicksort (Cnt.pureCmp c) fuel (Cnt.lazify l) s =
      some (Cnt.lazify out, s) := by
  intro fuel
  induction fuel with
  | zero => intro l s h; omega
  | succ fuel ih =>
    intro l s h
    match l with
    | [] => exact ⟨[], by simp [Cnt.lazyQuicksort, Cnt.lazify]⟩
    | x :: xs =>
      have h1 : xs.length < fuel := by
        simp only [List.length_cons] at h; omega
      obtain ⟨smOut, hsm⟩ := ih (xs.filter fun a => decide (c a x ≤ 0)) s
        (Nat.lt_of_le_of_lt (List.length_filter_le _ xs) h1)
      obtain ⟨bgOut, hbg⟩ := ih (xs.filter fun a => decide (c a x > 0)) s
        (Nat.lt_of_le_of_lt (List.length_filter_le _ xs) h1)
      refine ⟨smOut ++ [x] ++ bgOut, ?_⟩
      rw [Cnt.lazyQuicksort]
      simp only [Cnt.lazify, List.length_cons, Nat.succ_ne_zero, if_neg,
        filterForce_pureCmp, hsm, hbg]
      simp

/-- Claim C10: on a non-empty input, `lazyQuicksort` forces the outer producer of
its input deferred sequence exactly twice (emptiness test, then
destructuring) and on an empty input exactly once, and it never invokes an
element thunk of the input itself: with the outer producer ticking the first
counter, the elements arbitrary (possibly effectful) thunks, and a comparator
that is inert with respect to the state, the final state is exactly `(+2, unchanged)`
resp. `(+1, unchanged)` — any element forcing would show up in the state. -/
theorem c10_outer_forced_twice {α : Type} :
    (∀ (c : Cnt.Thk (Nat × Nat) α → Cnt.Thk (Nat × Nat) α → Int) (fuel : Nat) (s : Nat × Nat),
      Cnt.lazyQuicksort (Cnt.pureCmp c) (fuel + 1)
          (Cnt.tick1 ([] : List (Cnt.Thk (Nat × Nat) α))) s =
        some (Cnt.tick1 [], (s.1 + 1, s.2))) ∧
    (∀ (c : Cnt.Thk (Nat × Nat) α → Cnt.Thk (Nat × Nat) α → Int)
      (ts : List (Cnt.Thk (Nat × Nat) α)) (fuel : Nat) (s : Nat × Nat),
      ts ≠ [] → ts.length < fuel →
      ∃ out, Cnt.lazyQuicksort (Cnt.pureCmp c) fuel (Cnt.tick1 ts) s =
        some (Cnt.lazify out, (s.1 + 2, s.2))) := by
  constructor
  · intro c fuel s; rfl
  · intro c ts fuel s hne hlen
    match fuel, ts with
    | 0, _ => omega
    | fuel + 1, [] => exact absurd rfl hne
    | fuel + 1, x :: xs =>
      have h1 : xs.length < fuel := by
        simp only [List.length_cons] at hlen; omega
      obtain ⟨smOut, hsm⟩ := lazyQuicksort_pureCmp c fuel
        (xs.filter fun a => decide (c a x ≤ 0)) (s.1 + 2, s.2)
        (Nat.lt_of_le_of_lt (List.length_filter_le _ xs) h1)
      obtain ⟨bgOut, hbg⟩ := lazyQuicksort_pureCmp c fuel
        (xs.filter fun a => decide (c a x > 0)) (s.1 + 2, s.2)
        (Nat.lt_of_le_of_lt (List.length_filter_le _ xs) h1)
      refine ⟨smOut ++ [x] ++ bgOut, ?_⟩
      rw [Cnt.lazyQuicksort]
      simp only [Cnt.tick1, Cnt.lazify, List.length_cons, Nat.succ_ne_zero, if_neg,
        filterForce_pureCmp, hsm, hbg]
      simp

/-- Witness for `c10_outer_forced_twice` (non-empty branch) on the one-element
sequence `[5]` with an inert comparator, fuel `2`, counters starting at
`(0, 0)`: the outer producer is forced exactly twice and no element forcing
occurs. -/
theorem c10_outer_forced_twice_witness :
    ([Cnt.lazify (5 : Int)] ≠ ([] : List (Cnt.Thk (Nat × Nat) Int))) ∧ (1 < 2) ∧
    (∃ out, Cnt.lazyQuicksort (Cnt.pureCmp (fun _ _ => (0 : Int))) 2
        (Cnt.tick1 [Cnt.lazify (5 : Int)]) (0, 0) = some (Cnt.lazify out, (2, 0))) :=
  ⟨by simp, by decide,
    c10_outer_forced_twice.2 (fun _ _ => (0 : Int)) [Cnt.lazify (5 : Int)] 2 (0, 0)
      (by simp) (by decide)⟩

/-- Claim C7: on the empty input deferred sequence, `lazyQuicksort` returns the
input unchanged, touching no state at all (hence zero comparator
invocations) for *every* comparator and any fuel, so the concrete result is
`[]`; on the one-element input `[5]` with the (invocation-counting)
subtraction comparator, the result collapses to `[5]` and the comparator
counter stays `0`. -/
theorem c7_base_cases :
    (∀ (comparator : Cnt.Thk Nat Int → Cnt.Thk Nat Int → Cnt.Thk Nat Int)
      (fuel : Nat) (s : Nat),
      Cnt.lazyQuicksort comparator (fuel + 1) (Cnt.lazyToGreedy ([] : List Int)) s =
        some (Cnt.lazyToGreedy [], s)) ∧
    Cnt.lazyQuicksort Cnt.subCmpCount 2 (Cnt.lazyToGreedy [(5 : Int)]) 0 =
      some (Cnt.lazify [Cnt.lazify (5 : Int)], 0) := by
  constructor
  · intro comparator fuel s; rfl
  · rfl

/-- The number of comparator invocations `lazyQuicksort` performs on a
concrete input list: each non-empty level compares every element of the
remainder against the pivot once in the "smaller" filter and once more in
the "bigger" filter. -/
def qsCount : List Int → Nat
  | [] => 0
  | x :: xs =>
    xs.length + qsCount (xs.filter fun a => decide (a - x ≤ 0)) +
      (xs.length + qsCount (xs.filter fun a => decide (a - x > 0)))
termination_by l => l.length
decreasing_by
  all_goals exact Nat.lt_succ_of_le (List.length_filter_le _ _)

theorem filterForce_subCmpCount (x : Int) (keep : Int → Bool) (l : List Int) :
    ∀ s : Nat,
      Cnt.filterForce (fun a => Cnt.subCmpCount a (Cnt.lazify x)) keep (l.map Cnt.lazify) s =
        ((l.filter fun a => keep (a - x)).map Cnt.lazify, s + l.length) := by
  induction l with
  | nil => intro s; simp [Cnt.filterForce]
  | cons a ts ih =>
    intro s
    rw [List.map_cons, Cnt.filterForce]
    have hc : (fun b => Cnt.subCmpCount b (Cnt.lazify x)) (Cnt.lazify a) s = (a - x, s + 1) := rfl
    simp only [hc, ih, List.filter_cons, List.length_cons]
    by_cases hk : keep (a - x)
    · simp only [hk, if_pos, List.map_cons]
      refine congrArg _ ?_
      omega
    · simp only [hk, Bool.false_eq_true, if_neg]
      refine congrArg _ ?_
      omega

theorem lazyQuicksort_subCmpCount :
    ∀ (fuel : Nat) (l : List Int) (s : Nat), l.length < fuel →
    ∃ out : List Int,
      Cnt.lazyQuicksort Cnt.subCmpCount fuel (Cnt.lazify (l.map Cnt.lazify)) s =
        some (Cnt.lazify (out.map Cnt.lazify), s + qsCount l) := by
  intro fuel
  induction fuel with
  | zero => intro l s h; omega
  | succ fuel ih =>
    intro l s h
    match l with
    | [] => exact ⟨[], by simp [Cnt.lazyQuicksort, Cnt.lazify, qsCount]⟩
    | x :: xs =>
      have h1 : xs.length < fuel := by
        simp only [List.length_cons] at h; omega
      obtain ⟨smOut, hsm⟩ := ih (xs.filter fun a => decide (a - x ≤ 0)) (s + xs.length)
        (Nat.lt_of_le_of_lt (List.length_filter_le _ xs) h1)
      obtain ⟨bgOut, hbg⟩ := ih (xs.filter fun a => decide (a - x > 0))
        (s + xs.length + qsCount (xs.filter fun a => decide (a - x ≤ 0)) + xs.length)
        (Nat.lt_of_le_of_lt (List.length_filter_le _ xs) h1)
      refine ⟨smOut ++ [x] ++ bgOut, ?_⟩
      rw [Cnt.lazyQuicksort]
      have hS : s + xs.length + qsCount (xs.filter fun a => decide (a - x ≤ 0)) + xs.length +
          qsCount (xs.filter fun a => decide (a - x > 0)) = s + qsCount (x :: xs) := by
        rw [qsCount]
        omega
      simp only [Cnt.lazify, List.map_cons, List.length_cons, Nat.succ_ne_zero, if_neg,
        filterForce_subCmpCount, hsm, hbg, List.map_append]
      simp only [← hS]
      simp

/-- The comparator-invocation count of a run of `lazyQuicksort` on the
deferred version of a concrete list, read off the final counter state. -/
def runCnt (l : List Int) : Nat :=
  match Cnt.lazyQuicksort Cnt.subCmpCount (l.length + 1) (Cnt.lazify (l.map Cnt.lazify)) 0 with
  | some p => p.2
  | none => 0

theorem runCnt_eq_qsCount (l : List Int) : runCnt l = qsCount l := by
  obtain ⟨out, hout⟩ := lazyQuicksort_subCmpCount (l.length + 1) l 0 (by omega)
  unfold runCnt
  rw [hout]
  simp

/-- Claim C9: at every non-empty recursion level of `lazyQuicksort` over a pivot
`x` and remainder `xs` of `n` elements, the comparator is invoked exactly
`2 · n` times at that level — once per element in the `≤ 0` filter and once
more per element in the `> 0` filter — i.e. the total invocation count
satisfies `count (x :: xs) = 2n + count smallerPool + count biggerPool`. -/
theorem c9_comparator_count (x : Int) (xs : List Int) :
    runCnt (x :: xs) =
      2 * xs.length + runCnt (xs.filter fun a => decide (a - x ≤ 0)) +
        runCnt (xs.filter fun a => decide (a - x > 0)) := by
  rw [runCnt_eq_qsCount, runCnt_eq_qsCount, runCnt_eq_qsCount, qsCount]
  omega
